import Mathlib

/-!
# Verification of the batched MultiGet coordination layer

Shallow embedding of two source units of this repository:

* `MultiGetContext` with its nested `Range` and `Range::Iterator`
  (header providing the batch context, the shared `value_mask_`,
  per-`Range` `skip_mask_`, and the skipping forward iterator);
* `AsyncFileReader::MultiReadAsyncImpl` / `AsyncFileReader::Wait`
  (`util/async_file_reader.cc`), the coordinator that aggregates
  asynchronous read requests of several suspended flows and drains
  them with a single combined poll.

Machine integers (`uint64_t` masks) are modelled as `Nat`; the C++
bitwise complement `~x` on `uint64_t` is modelled as XOR with the
64-bit all-ones value.  Pointers to a shared `MultiGetContext` are
modelled by a heap: a function from context identities to the
context's mutable `value_mask_`.  Linked lists of waiters
(`head_`/`tail_`/`next_`) are modelled as Lean lists in FIFO order
(head of the list = `head_`).
-/

namespace RocksDBMultiGet

/-! ## MultiGetContext: data model -/

/-- Constant `MultiGetContext::MAX_KEYS_ON_STACK = 32`: the number of `LookupKey`
slots in the inline buffer `lookup_key_buf`. -/
def MAX_KEYS_ON_STACK : Nat := 32

/-- The per-batch context.  `num_keys` mirrors `num_keys_`; `value_mask`
mirrors the shared `uint64_t value_mask_`; `lookup_key_is_inline` records
whether `lookup_key_ptr_` points at the inline buffer `lookup_key_buf`
(as opposed to a heap allocation). -/
structure MultiGetContext where
  num_keys : Nat
  value_mask : Nat
  lookup_key_is_inline : Bool
deriving DecidableEq, Repr

/-- Constructor `MultiGetContext::MultiGetContext(sorted_keys, num_keys, snapshot)`:
initializes `value_mask_` to `0` and `lookup_key_ptr_` to the inline
buffer `lookup_key_buf`, unconditionally.  The constructor performs no
check of `num_keys` against any capacity, and never allocates a heap
buffer: it then loops over all `num_keys` positions placing a
`LookupKey` into consecutive slots of `lookup_key_ptr_`. -/
def mkMultiGetContext (num_keys : Nat) : MultiGetContext :=
  { num_keys := num_keys, value_mask := 0, lookup_key_is_inline := true }

/-- The slot indices of `lookup_key_ptr_` written by the constructor's
loop (`for (size_t iter = 0; iter != num_keys_; ++iter)` with
`new (&lookup_key_ptr_[index]) LookupKey(...)` and `index++`): one slot
per key, at indices `0, 1, ..., num_keys - 1`. -/
def constructorWrittenSlots (num_keys : Nat) : List Nat := List.range num_keys

/-- Destructor `MultiGetContext::~MultiGetContext()`: calls `delete[]` on
`lookup_key_ptr_` iff it differs from the inline buffer
`lookup_key_buf`. -/
def destructorFreesHeap (ctx : MultiGetContext) : Bool :=
  !ctx.lookup_key_is_inline

/-- A heap of contexts: context identity (the `MultiGetContext*`
pointer) to the current value of that context's mutable `value_mask_`.
All `Range`s holding the same `ctx_` pointer read and write the same
mask through it. -/
def Heap : Type := Nat → Nat

/-- Structure `MultiGetContext::Range`: `ctx_` (pointer, modelled by identity),
bounds `start_`/`end_`, and the Range-local `uint64_t skip_mask_`. -/
structure Range where
  ctx : Nat
  start_ : Nat
  end_ : Nat
  skip_mask : Nat
deriving DecidableEq, Repr

/-- Structure `MultiGetContext::Range::Iterator`: retains the parent's context
pointer and the current position `index_` (equality of iterators
compares only `index_`). -/
structure RangeIterator where
  ctx : Nat
  index : Nat
deriving DecidableEq, Repr

/-- Member `MultiGetContext::GetMultiGetRange()`: the private constructor
`Range(this, num_keys)` gives `start_ = 0`, `end_ = num_keys`,
`skip_mask_ = 0`. -/
def getMultiGetRange (cid : Nat) (c : MultiGetContext) : Range :=
  { ctx := cid, start_ := 0, end_ := c.num_keys, skip_mask := 0 }

/-- The skipping loop shared by `Iterator(const Range*, size_t)` and
`Iterator::operator++`:
`while (index_ < end_ && (1ull << index_) & (value_mask_ | skip_mask_)) index_++`.
`mask` is the value of `value_mask_ | skip_mask_`, `e` is `end_`. -/
def nextIdx (mask e i : Nat) : Nat :=
  if h : i < e ∧ (1 <<< i) &&& mask ≠ 0 then nextIdx mask e (i + 1) else i
termination_by e - i
decreasing_by omega

/-- Constructor `Iterator(range, index)`: store the context pointer and the starting
index, then run the skipping loop. -/
def mkIterator (h : Heap) (r : Range) (idx : Nat) : RangeIterator :=
  { ctx := r.ctx, index := nextIdx (h r.ctx ||| r.skip_mask) r.end_ idx }

/-- Member `Range::begin()` = `Iterator(this, start_)`. -/
def rangeBegin (h : Heap) (r : Range) : RangeIterator := mkIterator h r r.start_

/-- Member `Range::end()` = `Iterator(this, end_)`. -/
def rangeEndIter (h : Heap) (r : Range) : RangeIterator := mkIterator h r r.end_

/-- Constructor `Range(const Range& mget_range, const Iterator& first, const Iterator& last)`:
`ctx_ = mget_range.ctx_; start_ = first.index_; end_ = last.index_;
skip_mask_ = mget_range.skip_mask_`. -/
def subRange (parent : Range) (first last : RangeIterator) : Range :=
  { ctx := parent.ctx, start_ := first.index, end_ := last.index,
    skip_mask := parent.skip_mask }

/-- Member `Range::SkipKey(iter)`: `skip_mask_ |= 1ull << iter.index_`.  It
writes only the Range's own `skip_mask_`; the heap of shared contexts is
untouched, so the operation is modelled as returning the (unchanged)
heap together with the updated Range. -/
def skipKeyOp (h : Heap) (r : Range) (it : RangeIterator) : Heap × Range :=
  (h, { ctx := r.ctx, start_ := r.start_, end_ := r.end_,
        skip_mask := r.skip_mask ||| (1 <<< it.index) })

/-- Member `Range::MarkKeyDone(iter)`: `ctx_->value_mask_ |= (1ull << iter.index_)` —
a write through the shared context pointer. -/
def markKeyDone (h : Heap) (r : Range) (it : RangeIterator) : Heap :=
  fun c => if c = r.ctx then h c ||| (1 <<< it.index) else h c

/-- Member `Range::CheckKeyDone(iter)`: `ctx_->value_mask_ & (1ull << iter.index_)`
converted to `bool` (nonzero test). -/
def checkKeyDone (h : Heap) (r : Range) (it : RangeIterator) : Bool :=
  decide (h r.ctx &&& (1 <<< it.index) ≠ 0)

/-- The 64-bit all-ones value `UINT64_MAX`. -/
def allOnes64 : Nat := 2 ^ 64 - 1

/-- C++ `~x` on `uint64_t`: for `x < 2^64` this equals
`UINT64_MAX ^ x`. -/
def compl64 (x : Nat) : Nat := allOnes64 ^^^ x

/-- Member `Range::empty()`:
`(((1ull << end_) - 1) & ~((1ull << start_) - 1) & ~ctx_->value_mask_ & ~skip_mask_) == 0`. -/
def rangeEmpty (h : Heap) (r : Range) : Bool :=
  ((1 <<< r.end_) - 1) &&& compl64 ((1 <<< r.start_) - 1) &&&
      compl64 (h r.ctx) &&& compl64 r.skip_mask == 0

/-- The list of positions produced by iterating a Range from raw
position `i` up to `end_ = e` under a fixed combined mask
`value_mask_ | skip_mask_`: positions whose bit is set in the mask are
passed over by the skipping loop, any other position below `e` is
dereferenced and then advanced past (`operator++` increments and
re-runs the skipping loop); iteration stops when the position reaches
`e` (iterator equality compares `index_` only, and `end()` has index
`e`).  The lemma `iterPositionsFrom_nextIdx` below shows this equals
the `begin()`/`operator++` decomposition through `nextIdx`. -/
def iterPositionsFrom (mask e i : Nat) : List Nat :=
  if h : i < e then
    if (1 <<< i) &&& mask ≠ 0 then iterPositionsFrom mask e (i + 1)
    else i :: iterPositionsFrom mask e (i + 1)
  else []
termination_by e - i
decreasing_by all_goals omega

/-- The positions visited by a full `begin()`-to-`end()` iteration of a
Range, reading `value_mask_` through the shared context. -/
def iterPositions (h : Heap) (r : Range) : List Nat :=
  iterPositionsFrom (h r.ctx ||| r.skip_mask) r.end_ r.start_

/-- Marking a list of positions done, one `MarkKeyDone` call per
element. -/
def markKeyDoneList (h : Heap) (r : Range) (ds : List Nat) : Heap :=
  ds.foldl (fun hh i => markKeyDone hh r { ctx := r.ctx, index := i }) h

/-- The all-zero heap: every context's `value_mask_` is 0, as set by the
constructor. -/
def heap0 : Heap := fun _ => 0

/-! ## Shift-amount instrumentation (claim C10)

Each function below returns the list of shift amounts `s` for which the
corresponding C++ member evaluates an expression `1ull << s`. -/

/-- Shift amounts evaluated by one run of the iterator skipping loop
starting at `i`: the condition `(1ull << index_) & mask` is evaluated
exactly when `index_ < end_` holds (short-circuit `&&`), and the loop
continues while the bit is set. -/
def nextIdxShifts (mask e i : Nat) : List Nat :=
  if h : i < e then
    if (1 <<< i) &&& mask ≠ 0 then i :: nextIdxShifts mask e (i + 1) else [i]
  else []
termination_by e - i

/-- Shift amounts evaluated by `Range::empty()`: `end_` and `start_`. -/
def emptyShifts (r : Range) : List Nat := [r.end_, r.start_]

/-- The shift amount evaluated by `SkipKey`, `MarkKeyDone` and
`CheckKeyDone` at an iterator: the iterator's `index_`. -/
def keyOpShift (it : RangeIterator) : Nat := it.index

/-- Well-formedness of a Range over a batch of `n` keys:
`start_ ≤ end_ ≤ n`. -/
def RangeWF (r : Range) (n : Nat) : Prop := r.start_ ≤ r.end_ ∧ r.end_ ≤ n

/-! ## AsyncFileReader (util/async_file_reader.cc) -/

/-- A waiter (`ReadAwaiter`): the number of read requests it issued
(`num_reqs_`), the vectors `io_handle_` and `del_fn_` (`void*` entries
modelled as `Option Nat`, `none` = `nullptr`; cleanup functions by
identity), and the suspended continuation `awaiting_coro_` (by
identity). -/
structure ReadAwaiter where
  num_reqs : Nat
  io_handle : List (Option Nat)
  del_fn : List (Option Nat)
  coro : Nat
deriving DecidableEq, Repr

/-- Coordinator state: the FIFO list of pending waiters (the
`head_`/`tail_`/`next_` linked list, head of the Lean list = `head_`)
and the aggregate request counter `num_reqs_`. -/
structure AFRState where
  waiters : List ReadAwaiter
  num_reqs : Nat
deriving DecidableEq, Repr

/-- Invariant of reachable coordinator states: `num_reqs_` is the sum
of the pending waiters' request counts (holds initially and is
preserved by `MultiReadAsyncImpl` and `Wait`). -/
def AFRStateWF (s : AFRState) : Prop :=
  s.num_reqs = (s.waiters.map (fun w => w.num_reqs)).sum

/-- One iteration of the loop body in `MultiReadAsyncImpl` at index
`i`: `io_handle_.push_back(nullptr); del_fn_.push_back(nullptr);`
followed by `ReadAsync(..., &io_handle_[i], &del_fn_[i], ...)`, whose
net effect on the vectors is to write the backend-produced handle and
cleanup function into slot `i`.  `backend i` gives the pair that
`ReadAsync` stores for request `i` (`none` when the backend leaves the
slot null). -/
def enqueueIter (backend : Nat → Option Nat × Option Nat) (i : Nat)
    (v : List (Option Nat) × List (Option Nat)) :
    List (Option Nat) × List (Option Nat) :=
  ((v.1 ++ [none]).set i (backend i).1, (v.2 ++ [none]).set i (backend i).2)

/-- The `io_handle_`/`del_fn_` vectors produced by
`MultiReadAsyncImpl` for a waiter with `k` requests:
`io_handle_.resize(k); del_fn_.resize(k);` (k value-initialized, i.e.
null, entries each) followed by the loop `for (i = 0; i < k; ++i)`
doing `enqueueIter`. -/
def enqueueVectors (backend : Nat → Option Nat × Option Nat) (k : Nat) :
    List (Option Nat) × List (Option Nat) :=
  (List.range k).foldl (fun v i => enqueueIter backend i v)
    (List.replicate k none, List.replicate k none)

/-- The waiter as it stands after `MultiReadAsyncImpl` returns, for a
waiter that arrived with `k` requests and continuation `coro`. -/
def enqueuedWaiter (backend : Nat → Option Nat × Option Nat) (k coro : Nat) :
    ReadAwaiter :=
  { num_reqs := k, io_handle := (enqueueVectors backend k).1,
    del_fn := (enqueueVectors backend k).2, coro := coro }

/-- Member `AsyncFileReader::MultiReadAsyncImpl(awaiter)`: appends the awaiter
at the tail of the linked list (creating it when empty), adds
`awaiter->num_reqs_` to `num_reqs_`, sizes and fills the
`io_handle_`/`del_fn_` vectors as above, and submits every request
fire-and-forget (`PermitUncheckedError`); it always returns `true`. -/
def multiReadAsyncImpl (backend : Nat → Option Nat × Option Nat)
    (s : AFRState) (k coro : Nat) : AFRState :=
  { waiters := s.waiters ++ [enqueuedWaiter backend k coro],
    num_reqs := s.num_reqs + k }

/-- Observable events of `Wait()`: the single combined `fs_->Poll` call
(with the list of collected handles), a cleanup-function invocation
`del_fn_[i](io_handle_[i])`, the resumption of a waiter's continuation,
and the `RecordInHistogram(stats_, MULTIGET_IO_BATCH_SIZE, num_reqs_)`
diagnostic sample. -/
inductive AFREvent where
  | poll (handles : List Nat)
  | cleanup (fn handle : Nat)
  | resume (coro : Nat)
  | record (n : Nat)
deriving DecidableEq, Repr

/-- Whether an event is the combined poll call. -/
def AFREvent.isPoll : AFREvent → Bool
  | AFREvent.poll _ => true
  | _ => false

/-- The continuation identities of the resume events of a trace, in
order. -/
def resumesOf (evs : List AFREvent) : List Nat :=
  evs.filterMap fun e =>
    match e with
    | AFREvent.resume c => some c
    | _ => none

/-- The inner loop of `Wait()`'s collection phase for one waiter:
`for (i = 0; i < num_reqs_; ++i) if (io_handle_[i]) push_back(io_handle_[i])`. -/
def collectPerWaiter (w : ReadAwaiter) : List Nat :=
  (List.range w.num_reqs).filterMap fun i => w.io_handle.getD i none

/-- The collection do-while of `Wait()`: walk the waiter list from
`head_` to `tail_` accumulating each waiter's non-null handles. -/
def collectLoop : List ReadAwaiter → List Nat
  | [] => []
  | w :: rest => collectPerWaiter w ++ collectLoop rest

/-- The cleanup events run for one waiter during the drain phase:
`for (i = 0; i < num_reqs_; ++i) if (io_handle_[i] && del_fn_[i]) del_fn_[i](io_handle_[i])`. -/
def waiterCleanups (w : ReadAwaiter) : List AFREvent :=
  (List.range w.num_reqs).filterMap fun i =>
    match w.io_handle.getD i none, w.del_fn.getD i none with
    | some hh, some f => some (AFREvent.cleanup f hh)
    | _, _ => none

/-- The drain do-while of `Wait()`: pop waiters from `head_` in FIFO
order; for each, run its cleanups then `awaiting_coro_.resume()`. -/
def drainLoop : List ReadAwaiter → List AFREvent
  | [] => []
  | w :: rest => waiterCleanups w ++ AFREvent.resume w.coro :: drainLoop rest

/-- Member `AsyncFileReader::Wait()`: early return when `head_` is null;
otherwise collect the handles, call `fs_->Poll` once on them only when
some handle was collected (`if (io_handles.size() > 0)`), drain every
waiter in FIFO order, null out `head_`/`tail_`, record the histogram
sample of `num_reqs_`, and zero `num_reqs_`.  Returns the new state and
the event trace. -/
def wait (s : AFRState) : AFRState × List AFREvent :=
  match s.waiters with
  | [] => (s, [])
  | w :: rest =>
    let handles := collectLoop (w :: rest)
    let pollEvents := if handles.length > 0 then [AFREvent.poll handles] else []
    ({ waiters := [], num_reqs := 0 },
      pollEvents ++ drainLoop (w :: rest) ++ [AFREvent.record s.num_reqs])

/-- A concrete coordinator state used as a C2 instance: one waiter with
a single request whose backend never produced an I/O handle or cleanup
function (both slots null). -/
def afrNullState : AFRState :=
  { waiters := [{ num_reqs := 1, io_handle := [none, none],
                  del_fn := [none, none], coro := 7 }],
    num_reqs := 1 }

/-- A concrete coordinator state used as a C2 witness: two flows with 2
and 3 requests respectively, every handle present. -/
def afrTwoFlowState : AFRState :=
  multiReadAsyncImpl (fun i => (some (20 + i), some (30 + i)))
    (multiReadAsyncImpl (fun i => (some (10 + i), some (40 + i)))
      { waiters := [], num_reqs := 0 } 2 100)
    3 200

/-- A concrete 3-key batch context used by witnesses. -/
def exCtx : MultiGetContext := mkMultiGetContext 3

/-- The full Range over `exCtx` (context identity 0). -/
def exFullRange : Range := getMultiGetRange 0 exCtx

/-- A sibling Range over the same context, bounds narrowed to `[1, 3)`. -/
def exSubRange : Range := { ctx := 0, start_ := 1, end_ := 3, skip_mask := 0 }

/-- A Range whose skip mask covers its whole window `[0, 2)`. -/
def exSkippedRange : Range := { ctx := 0, start_ := 0, end_ := 2, skip_mask := 3 }

/-! ## Helper lemmas -/

theorem shiftAnd_ne_zero (mask i : Nat) :
    ((1 <<< i) &&& mask ≠ 0) ↔ mask.testBit i = true := by
  rw [Nat.one_shiftLeft, Nat.two_pow_and]
  cases h : mask.testBit i <;> simp [h, Nat.pos_iff_ne_zero.symm, Nat.pow_pos]

theorem andShift_ne_zero (mask i : Nat) :
    (mask &&& (1 <<< i) ≠ 0) ↔ mask.testBit i = true := by
  rw [Nat.one_shiftLeft, Nat.and_two_pow]
  cases h : mask.testBit i <;> simp [h, Nat.pos_iff_ne_zero.symm, Nat.pow_pos]

theorem nextIdx_eq (mask e i : Nat) :
    nextIdx mask e i =
      if i < e ∧ (1 <<< i) &&& mask ≠ 0 then nextIdx mask e (i + 1) else i := by
  by_cases h : i < e ∧ (1 <<< i) &&& mask ≠ 0
  · rw [if_pos h]
    conv_lhs => rw [nextIdx]
    rw [dif_pos h]
  · rw [if_neg h]
    conv_lhs => rw [nextIdx]
    rw [dif_neg h]

theorem iterPositionsFrom_eq (mask e i : Nat) :
    iterPositionsFrom mask e i =
      if i < e then
        if (1 <<< i) &&& mask ≠ 0 then iterPositionsFrom mask e (i + 1)
        else i :: iterPositionsFrom mask e (i + 1)
      else [] := by
  by_cases h : i < e
  · rw [if_pos h]
    conv_lhs => rw [iterPositionsFrom]
    rw [dif_pos h]
  · rw [if_neg h]
    conv_lhs => rw [iterPositionsFrom]
    rw [dif_neg h]

/-- The structural-descent definition of the iteration trace agrees
with the `begin()` / `operator++` decomposition through the skipping
loop `nextIdx`: normalize to `nextIdx mask e i`; if it is below `end_`,
that position is yielded and iteration continues from its successor. -/
theorem iterPositionsFrom_nextIdx (mask e : Nat) : ∀ i,
    iterPositionsFrom mask e i =
      if nextIdx mask e i < e then
        nextIdx mask e i :: iterPositionsFrom mask e (nextIdx mask e i + 1)
      else [] := by
  have H : ∀ fuel i, e - i ≤ fuel →
      iterPositionsFrom mask e i =
        if nextIdx mask e i < e then
          nextIdx mask e i :: iterPositionsFrom mask e (nextIdx mask e i + 1)
        else [] := by
    intro fuel
    induction fuel with
    | zero =>
      intro i hi
      have he : ¬ i < e := by omega
      rw [iterPositionsFrom_eq, if_neg he, nextIdx_eq]
      have : ¬ (i < e ∧ (1 <<< i) &&& mask ≠ 0) := fun hc => he hc.1
      rw [if_neg this, if_neg he]
    | succ n ih =>
      intro i hi
      by_cases he : i < e
      · by_cases hb : (1 <<< i) &&& mask ≠ 0
        · rw [iterPositionsFrom_eq, if_pos he, if_pos hb, ih (i + 1) (by omega)]
          have : nextIdx mask e i = nextIdx mask e (i + 1) := by
            rw [nextIdx_eq, if_pos ⟨he, hb⟩]
          rw [this]
        · have hn : nextIdx mask e i = i := by
            rw [nextIdx_eq, if_neg (fun hc => hb hc.2)]
          rw [iterPositionsFrom_eq, if_pos he, if_neg hb, hn, if_pos he]
      · have hn : nextIdx mask e i = i := by
          rw [nextIdx_eq, if_neg (fun hc => he hc.1)]
        rw [iterPositionsFrom_eq, if_neg he, hn, if_neg he]
  intro i
  exact H (e - i) i (Nat.le_refl _)

/-- The iteration trace from `i` is exactly the increasing enumeration
of the positions of `[i, e)` whose bit is clear in the combined mask. -/
theorem iterPositionsFrom_filter (mask e : Nat) : ∀ i,
    iterPositionsFrom mask e i =
      (List.range' i (e - i)).filter (fun j => !mask.testBit j) := by
  have H : ∀ fuel i, e - i ≤ fuel →
      iterPositionsFrom mask e i =
        (List.range' i (e - i)).filter (fun j => !mask.testBit j) := by
    intro fuel
    induction fuel with
    | zero =>
      intro i hi
      have he : ¬ i < e := by omega
      rw [iterPositionsFrom_eq, if_neg he]
      have h0 : e - i = 0 := by omega
      rw [h0]
      rfl
    | succ n ih =>
      intro i hi
      by_cases he : i < e
      · have hrange : List.range' i (e - i) = i :: List.range' (i + 1) (e - (i + 1)) := by
          have h1 : e - i = (e - (i + 1)) + 1 := by omega
          rw [h1, List.range'_succ]
        rw [iterPositionsFrom_eq, if_pos he, hrange]
        by_cases hb : (1 <<< i) &&& mask ≠ 0
        · have hbit : mask.testBit i = true := (shiftAnd_ne_zero mask i).mp hb
          rw [if_pos hb, ih (i + 1) (by omega)]
          simp [List.filter_cons, hbit]
        · have hbit : mask.testBit i = false := by
            cases hb2 : mask.testBit i
            · rfl
            · exact absurd ((shiftAnd_ne_zero mask i).mpr hb2) hb
          rw [if_neg hb, ih (i + 1) (by omega)]
          simp [List.filter_cons, hbit]
      · rw [iterPositionsFrom_eq, if_neg he]
        have h0 : e - i = 0 := by omega
        rw [h0]
        rfl
  intro i
  exact H (e - i) i (Nat.le_refl _)

theorem nextIdx_le (mask e : Nat) : ∀ i, i ≤ e → nextIdx mask e i ≤ e := by
  have H : ∀ fuel i, e - i ≤ fuel → i ≤ e → nextIdx mask e i ≤ e := by
    intro fuel
    induction fuel with
    | zero =>
      intro i hf hi
      rw [nextIdx_eq]
      split
      · omega
      · exact hi
    | succ n ih =>
      intro i hf hi
      rw [nextIdx_eq]
      split
      · next hc => exact ih (i + 1) (by omega) (by omega)
      · exact hi
  intro i hi
  exact H (e - i) i (Nat.le_refl _) hi

theorem nextIdxShifts_eq (mask e i : Nat) :
    nextIdxShifts mask e i =
      if i < e then
        if (1 <<< i) &&& mask ≠ 0 then i :: nextIdxShifts mask e (i + 1) else [i]
      else [] := by
  by_cases h : i < e
  · rw [if_pos h]
    conv_lhs => rw [nextIdxShifts]
    rw [dif_pos h]
  · rw [if_neg h]
    conv_lhs => rw [nextIdxShifts]
    rw [dif_neg h]

theorem nextIdxShifts_lt (mask e : Nat) : ∀ i, ∀ a ∈ nextIdxShifts mask e i, a < e := by
  have H : ∀ fuel i, e - i ≤ fuel → ∀ a ∈ nextIdxShifts mask e i, a < e := by
    intro fuel
    induction fuel with
    | zero =>
      intro i hf a ha
      rw [nextIdxShifts_eq] at ha
      have he : ¬ i < e := by omega
      rw [if_neg he] at ha
      exact absurd ha (List.not_mem_nil a)
    | succ n ih =>
      intro i hf a ha
      rw [nextIdxShifts_eq] at ha
      by_cases he : i < e
      · rw [if_pos he] at ha
        by_cases hb : (1 <<< i) &&& mask ≠ 0
        · rw [if_pos hb] at ha
          rcases List.mem_cons.mp ha with h1 | h2
          · omega
          · exact ih (i + 1) (by omega) a h2
        · rw [if_neg hb] at ha
          rcases List.mem_cons.mp ha with h1 | h2
          · omega
          · exact absurd h2 (List.not_mem_nil a)
      · rw [if_neg he] at ha
        exact absurd ha (List.not_mem_nil a)
  intro i
  exact H (e - i) i (Nat.le_refl _)

theorem compl64_testBit (x j : Nat) :
    (compl64 x).testBit j = ((decide (j < 64)).xor (x.testBit j)) := by
  unfold compl64 allOnes64
  rw [Nat.testBit_xor, Nat.testBit_two_pow_sub_one]

theorem markKeyDoneList_testBit (r : Range) : ∀ (ds : List Nat) (h : Heap) (c j : Nat),
    ((markKeyDoneList h r ds) c).testBit j =
      ((h c).testBit j || (decide (c = r.ctx) && decide (j ∈ ds))) := by
  intro ds
  induction ds with
  | nil =>
    intro h c j
    simp [markKeyDoneList]
  | cons d rest ih =>
    intro h c j
    have hstep : markKeyDoneList h r (d :: rest) =
        markKeyDoneList (markKeyDone h r { ctx := r.ctx, index := d }) r rest := rfl
    rw [hstep, ih]
    by_cases hc : c = r.ctx
    · simp only [markKeyDone, hc, if_pos rfl, Nat.testBit_or, Nat.one_shiftLeft,
        Nat.testBit_two_pow]
      simp [List.mem_cons, decide_eq_true_eq]
      by_cases hdj : d = j
      · subst hdj
        simp
      · have hjd : ¬ j = d := fun hh => hdj hh.symm
        simp [hjd, Nat.testBit_two_pow, hdj]
    · simp [markKeyDone, hc]

theorem collectLoop_flatMap (ws : List ReadAwaiter) :
    collectLoop ws = ws.flatMap collectPerWaiter := by
  induction ws with
  | nil => rfl
  | cons w rest ih => simp [collectLoop, ih]

theorem drainLoop_flatMap (ws : List ReadAwaiter) :
    drainLoop ws = ws.flatMap (fun w => waiterCleanups w ++ [AFREvent.resume w.coro]) := by
  induction ws with
  | nil => rfl
  | cons w rest ih => simp [drainLoop, ih]

theorem resumesOf_append (l1 l2 : List AFREvent) :
    resumesOf (l1 ++ l2) = resumesOf l1 ++ resumesOf l2 := by
  unfold resumesOf
  exact List.filterMap_append l1 l2 _

theorem resumesOf_waiterCleanups (w : ReadAwaiter) :
    resumesOf (waiterCleanups w) = [] := by
  unfold resumesOf
  rw [List.filterMap_eq_nil_iff]
  intro e he
  unfold waiterCleanups at he
  rcases List.mem_filterMap.mp he with ⟨i, _, hi⟩
  cases h1 : w.io_handle.getD i none with
  | none => rw [h1] at hi; exact absurd hi (by simp)
  | some hh =>
    cases h2 : w.del_fn.getD i none with
    | none => rw [h1, h2] at hi; exact absurd hi (by simp)
    | some f =>
      rw [h1, h2] at hi
      have he2 : e = AFREvent.cleanup f hh := (Option.some.inj hi).symm
      rw [he2]

theorem resumesOf_drainLoop (ws : List ReadAwaiter) :
    resumesOf (drainLoop ws) = ws.map (fun w => w.coro) := by
  induction ws with
  | nil => rfl
  | cons w rest ih =>
    have : drainLoop (w :: rest) =
        waiterCleanups w ++ ([AFREvent.resume w.coro] ++ drainLoop rest) := by
      simp [drainLoop]
    rw [this, resumesOf_append, resumesOf_append, resumesOf_waiterCleanups, ih]
    rfl

theorem set_after_append (xs : List (Option Nat)) (m cnt tail : Nat) (b : Option Nat)
    (hxs : xs.length = m) (hcnt : 0 < cnt) :
    ((xs ++ (List.replicate cnt none ++ List.replicate tail none)) ++ [none]).set m b =
      (xs ++ [b]) ++ (List.replicate (cnt - 1) none ++ List.replicate (tail + 1) none) := by
  subst hxs
  have h1 : (xs ++ (List.replicate cnt (none : Option Nat) ++ List.replicate tail none)) ++ [none]
      = xs ++ (List.replicate cnt none ++ List.replicate (tail + 1) none) := by
    rw [List.append_assoc, List.append_assoc, ← List.replicate_succ']
  rw [h1, List.set_append_right _ _ (Nat.le_refl xs.length), Nat.sub_self]
  have h2 : List.replicate cnt (none : Option Nat) = none :: List.replicate (cnt - 1) none := by
    cases cnt with
    | zero => omega
    | succ c => simp [List.replicate_succ]
  rw [h2]
  simp

theorem enqueueVectors_eq (backend : Nat → Option Nat × Option Nat) (k : Nat) :
    enqueueVectors backend k =
      ((List.range k).map (fun i => (backend i).1) ++ List.replicate k none,
       (List.range k).map (fun i => (backend i).2) ++ List.replicate k none) := by
  have H : ∀ j, j ≤ k →
      (List.range j).foldl (fun v i => enqueueIter backend i v)
          (List.replicate k none, List.replicate k none) =
        ((List.range j).map (fun i => (backend i).1) ++
            (List.replicate (k - j) none ++ List.replicate j none),
         (List.range j).map (fun i => (backend i).2) ++
            (List.replicate (k - j) none ++ List.replicate j none)) := by
    intro j
    induction j with
    | zero =>
      intro hj
      simp
    | succ n ih =>
      intro hj
      rw [List.range_succ, List.foldl_append, ih (by omega)]
      show enqueueIter backend n _ = _
      unfold enqueueIter
      rw [Prod.mk.injEq]
      have hcnt : 0 < k - n := by omega
      have hsub : k - n - 1 = k - (n + 1) := by omega
      have hmap1 : ((List.range n).map (fun i => (backend i).1)) ++ [(backend n).1] =
          (List.range (n + 1)).map (fun i => (backend i).1) := by
        rw [List.range_succ, List.map_append]
        rfl
      have hmap2 : ((List.range n).map (fun i => (backend i).2)) ++ [(backend n).2] =
          (List.range (n + 1)).map (fun i => (backend i).2) := by
        rw [List.range_succ, List.map_append]
        rfl
      constructor
      · have := set_after_append ((List.range n).map (fun i => (backend i).1)) n
          (k - n) n (backend n).1 (by simp) hcnt
        simp only at this ⊢
        rw [this, hsub, hmap1, List.range_succ]
      · have := set_after_append ((List.range n).map (fun i => (backend i).2)) n
          (k - n) n (backend n).2 (by simp) hcnt
        simp only at this ⊢
        rw [this, hsub, hmap2, List.range_succ]
  have hk := H k (Nat.le_refl k)
  unfold enqueueVectors
  rw [hk, Nat.sub_self]
  simp

/-! ## Claim theorems -/

/-- C3: calling `MarkKeyDone` at index `i` through one Range sets bit
`i` of the single shared `value_mask_`; `CheckKeyDone` and iteration
through every other Range over the same context observe the completion
immediately (the marked index disappears from every sibling's
iteration); and the transition is one-way — `MarkKeyDone`, the only
operation that writes `value_mask_` (by its type, `skipKeyOp` leaves
the heap of contexts untouched), never clears a set bit of any
context's mask. -/
theorem markKeyDone_shared_one_way (h : Heap) (r1 r2 : Range) (i : Nat)
    (hctx : r2.ctx = r1.ctx) :
    ((markKeyDone h r1 { ctx := r1.ctx, index := i }) r1.ctx).testBit i = true ∧
    checkKeyDone (markKeyDone h r1 { ctx := r1.ctx, index := i }) r2
      { ctx := r2.ctx, index := i } = true ∧
    i ∉ iterPositions (markKeyDone h r1 { ctx := r1.ctx, index := i }) r2 ∧
    (∀ c j, (h c).testBit j = true →
      ((markKeyDone h r1 { ctx := r1.ctx, index := i }) c).testBit j = true) := by
  have hval : (markKeyDone h r1 { ctx := r1.ctx, index := i }) r1.ctx =
      h r1.ctx ||| (1 <<< i) := by
    unfold markKeyDone
    rw [if_pos rfl]
  have hbit : ((markKeyDone h r1 { ctx := r1.ctx, index := i }) r1.ctx).testBit i = true := by
    rw [hval, Nat.testBit_or, Nat.one_shiftLeft, Nat.testBit_two_pow_self, Bool.or_true]
  refine ⟨hbit, ?_, ?_, ?_⟩
  · unfold checkKeyDone
    rw [hctx]
    simp only [decide_eq_true_eq]
    rw [andShift_ne_zero, hval, Nat.testBit_or, Nat.one_shiftLeft,
      Nat.testBit_two_pow_self, Bool.or_true]
  · intro hmem
    unfold iterPositions at hmem
    rw [iterPositionsFrom_filter] at hmem
    have hp := (List.mem_filter.mp hmem).2
    rw [hctx, Nat.testBit_or, hbit] at hp
    simp at hp
  · intro c j hcj
    unfold markKeyDone
    by_cases hcc : c = r1.ctx
    · rw [if_pos hcc, Nat.testBit_or, hcj, Bool.true_or]
    · rw [if_neg hcc]
      exact hcj

/-- Witness for C3 at a concrete input: heap all-zero, two Ranges over
context 0, index 1. -/
theorem markKeyDone_shared_one_way_witness :
    exSubRange.ctx = exFullRange.ctx ∧
    (((markKeyDone heap0 exFullRange { ctx := exFullRange.ctx, index := 1 })
        exFullRange.ctx).testBit 1 = true ∧
    checkKeyDone (markKeyDone heap0 exFullRange { ctx := exFullRange.ctx, index := 1 })
      exSubRange { ctx := exSubRange.ctx, index := 1 } = true ∧
    1 ∉ iterPositions (markKeyDone heap0 exFullRange { ctx := exFullRange.ctx, index := 1 })
      exSubRange ∧
    (∀ c j, (heap0 c).testBit j = true →
      ((markKeyDone heap0 exFullRange { ctx := exFullRange.ctx, index := 1 }) c).testBit j
        = true)) :=
  ⟨rfl, markKeyDone_shared_one_way heap0 exFullRange exSubRange 1 rfl⟩

/-- C4: iterating a Range from `begin()` to `end()` yields exactly the
positions of `[start_, end_)` whose bit is clear in
`value_mask_ ||| skip_mask_`, in increasing index order; a full Range
over an `n`-key batch with nothing skipped or resolved enumerates all
`n` positions `0, ..., n-1`; and marking a set of indices done removes
exactly those indices from the full range's iteration, preserving the
relative order of the rest. -/
theorem range_iteration_filter :
    (∀ (h : Heap) (r : Range),
      iterPositions h r =
        (List.range' r.start_ (r.end_ - r.start_)).filter
          (fun j => !(h r.ctx ||| r.skip_mask).testBit j)) ∧
    (∀ cid n,
      iterPositions heap0 (getMultiGetRange cid (mkMultiGetContext n)) = List.range n) ∧
    (∀ cid n (ds : List Nat),
      iterPositions
          (markKeyDoneList heap0 (getMultiGetRange cid (mkMultiGetContext n)) ds)
          (getMultiGetRange cid (mkMultiGetContext n)) =
        (List.range n).filter (fun j => !decide (j ∈ ds))) := by
  have main : ∀ (h : Heap) (r : Range),
      iterPositions h r =
        (List.range' r.start_ (r.end_ - r.start_)).filter
          (fun j => !(h r.ctx ||| r.skip_mask).testBit j) := by
    intro h r
    unfold iterPositions
    rw [iterPositionsFrom_filter]
  refine ⟨main, ?_, ?_⟩
  · intro cid n
    rw [main]
    unfold getMultiGetRange mkMultiGetContext heap0
    simp [List.range_eq_range']
  · intro cid n ds
    rw [main]
    unfold getMultiGetRange mkMultiGetContext
    simp only [Nat.sub_zero, List.range_eq_range']
    apply List.filter_congr
    intro j _
    rw [Nat.or_zero, markKeyDoneList_testBit]
    unfold heap0
    simp

/-- C5: `empty()` returns true iff every index of `[start_, end_)` has
its bit set in `value_mask_ ||| skip_mask_`; the computation is the
single bit-mask expression of the source, with no iteration. -/
theorem rangeEmpty_iff (h : Heap) (r : Range) (he : r.end_ ≤ 64) :
    rangeEmpty h r = true ↔
      ∀ i, r.start_ ≤ i → i < r.end_ →
        (h r.ctx ||| r.skip_mask).testBit i = true := by
  unfold rangeEmpty
  rw [beq_iff_eq]
  constructor
  · intro hz i h1 h2
    by_contra hbit
    have hb : (h r.ctx ||| r.skip_mask).testBit i = false :=
      Bool.eq_false_iff.mpr hbit
    rw [Nat.testBit_or] at hb
    have hbv : (h r.ctx).testBit i = false := by
      cases hx : (h r.ctx).testBit i
      · rfl
      · rw [hx, Bool.true_or] at hb
        exact absurd hb (by simp)
    have hbs : r.skip_mask.testBit i = false := by
      cases hx : r.skip_mask.testBit i
      · rfl
      · rw [hx, Bool.or_true] at hb
        exact absurd hb (by simp)
    have h64 : i < 64 := by omega
    have hone : (((1 <<< r.end_) - 1) &&& compl64 ((1 <<< r.start_) - 1) &&&
        compl64 (h r.ctx) &&& compl64 r.skip_mask).testBit i = true := by
      rw [Nat.testBit_and, Nat.testBit_and, Nat.testBit_and, compl64_testBit,
        compl64_testBit, compl64_testBit, Nat.one_shiftLeft, Nat.one_shiftLeft,
        Nat.testBit_two_pow_sub_one, Nat.testBit_two_pow_sub_one, hbv, hbs]
      have hns : ¬ i < r.start_ := by omega
      simp [h2, hns, h64]
    rw [hz, Nat.zero_testBit] at hone
    exact absurd hone (by simp)
  · intro hall
    apply Nat.eq_of_testBit_eq
    intro j
    rw [Nat.zero_testBit, Nat.testBit_and, Nat.testBit_and, Nat.testBit_and,
      compl64_testBit, compl64_testBit, compl64_testBit, Nat.one_shiftLeft,
      Nat.one_shiftLeft, Nat.testBit_two_pow_sub_one, Nat.testBit_two_pow_sub_one]
    by_cases hje : j < r.end_
    · have hj64 : j < 64 := by omega
      by_cases hjs : j < r.start_
      · simp [hje, hjs, hj64]
      · have hor := hall j (by omega) hje
        rw [Nat.testBit_or] at hor
        cases hv : (h r.ctx).testBit j
        · cases hs : r.skip_mask.testBit j
          · rw [hv, hs] at hor
            exact absurd hor (by simp)
          · simp [hje, hjs, hj64, hv, hs]
        · simp [hje, hjs, hj64, hv]
    · simp [hje]

/-- Witness for C5 at a concrete input: a Range whose two positions are
both covered by its skip mask, so `empty()` is true and every bit in
the window is set. -/
theorem rangeEmpty_iff_witness :
    exSkippedRange.end_ ≤ 64 ∧
    (rangeEmpty heap0 exSkippedRange = true ↔
      ∀ i, exSkippedRange.start_ ≤ i → i < exSkippedRange.end_ →
        (heap0 exSkippedRange.ctx ||| exSkippedRange.skip_mask).testBit i = true) :=
  ⟨by decide, rangeEmpty_iff heap0 exSkippedRange (by decide)⟩

/-- C6: `SkipKey` writes only the acting Range's own `skip_mask_`: the
heap of shared contexts is returned unchanged, the acting Range's other
fields are preserved while its skip mask gains the bit, and a sibling
Range over the same context sees no change to its own skip mask,
iteration, emptiness, or `CheckKeyDone` answers. -/
theorem skipKey_frame (h : Heap) (r sib : Range) (it : RangeIterator) :
    (skipKeyOp h r it).1 = h ∧
    (skipKeyOp h r it).2.ctx = r.ctx ∧
    (skipKeyOp h r it).2.start_ = r.start_ ∧
    (skipKeyOp h r it).2.end_ = r.end_ ∧
    (skipKeyOp h r it).2.skip_mask = r.skip_mask ||| (1 <<< it.index) ∧
    sib.skip_mask = sib.skip_mask ∧
    iterPositions (skipKeyOp h r it).1 sib = iterPositions h sib ∧
    rangeEmpty (skipKeyOp h r it).1 sib = rangeEmpty h sib ∧
    (∀ it2, checkKeyDone (skipKeyOp h r it).1 sib it2 = checkKeyDone h sib it2) :=
  ⟨rfl, rfl, rfl, rfl, rfl, rfl, rfl, rfl, fun _ => rfl⟩

/-- C7: the sub-range constructor `Range(parent, first, last)` narrows
only the bounds: `start_` becomes `first`'s index, `end_` becomes
`last`'s index, the context pointer is the parent's, and the
`skip_mask_` is the parent's verbatim. -/
theorem subRange_fields (parent : Range) (first last : RangeIterator) :
    (subRange parent first last).start_ = first.index ∧
    (subRange parent first last).end_ = last.index ∧
    (subRange parent first last).ctx = parent.ctx ∧
    (subRange parent first last).skip_mask = parent.skip_mask :=
  ⟨rfl, rfl, rfl, rfl⟩

/-- C10: for a batch of `num_keys ≤ MAX_KEYS_ON_STACK = 32` keys, the
full range is well-formed, well-formedness bounds `end_` by the batch
size, and every shift amount evaluated by `empty()` (namely `end_` and
`start_`), by the iterator skipping loop started at any index (each
shift there is guarded by `index_ < end_`), and by
`SkipKey`/`MarkKeyDone`/`CheckKeyDone` at any normalized iterator
position is strictly less than 64; the skipping loop also keeps the
iterator index within `end_`. -/
theorem shift_amounts_lt_64 (n : Nat) (hn : n ≤ MAX_KEYS_ON_STACK) (cid : Nat)
    (r : Range) (hr : RangeWF r n) (mask i : Nat) (hi : i ≤ r.end_) :
    RangeWF (getMultiGetRange cid (mkMultiGetContext n)) n ∧
    (∀ a ∈ emptyShifts r, a < 64) ∧
    (∀ a ∈ nextIdxShifts mask r.end_ i, a < 64) ∧
    nextIdx mask r.end_ i ≤ r.end_ ∧
    keyOpShift { ctx := r.ctx, index := nextIdx mask r.end_ i } < 64 := by
  obtain ⟨hse, hen⟩ := hr
  have h32 : MAX_KEYS_ON_STACK = 32 := rfl
  have hlt : r.end_ < 64 := by omega
  have hnext := nextIdx_le mask r.end_ i hi
  refine ⟨⟨Nat.zero_le _, Nat.le_refl _⟩, ?_, ?_, hnext, ?_⟩
  · intro a ha
    unfold emptyShifts at ha
    rcases List.mem_cons.mp ha with h1 | h2
    · omega
    · rcases List.mem_cons.mp h2 with h3 | h4
      · omega
      · exact absurd h4 (List.not_mem_nil a)
  · intro a ha
    have := nextIdxShifts_lt mask r.end_ i a ha
    omega
  · show nextIdx mask r.end_ i < 64
    omega

/-- Witness for C10 at a concrete input: the full range over a 3-key
batch, skipping loop started at index 0 under mask 0. -/
theorem shift_amounts_lt_64_witness :
    (3 ≤ MAX_KEYS_ON_STACK ∧ RangeWF exFullRange 3 ∧ 0 ≤ exFullRange.end_) ∧
    (RangeWF (getMultiGetRange 0 (mkMultiGetContext 3)) 3 ∧
    (∀ a ∈ emptyShifts exFullRange, a < 64) ∧
    (∀ a ∈ nextIdxShifts 0 exFullRange.end_ 0, a < 64) ∧
    nextIdx 0 exFullRange.end_ 0 ≤ exFullRange.end_ ∧
    keyOpShift { ctx := exFullRange.ctx, index := nextIdx 0 exFullRange.end_ 0 } < 64) :=
  ⟨⟨by decide, ⟨by decide, by decide⟩, by decide⟩,
    shift_amounts_lt_64 3 (by decide) 0 exFullRange ⟨by decide, by decide⟩ 0 0 (by decide)⟩

/-- C1 (behavior at the failing input): the constructor performs no
capacity check whatsoever.  At `num_keys = 65` — strictly above the
64-bit capacity of `value_mask_` — construction completes normally,
with the fields set exactly as for any in-range count and no error
raised (the code has no failure path), and the constructor loop writes
65 lookup-key slots, including slot 64, far beyond the 32-slot inline
buffer. -/
theorem constructor_accepts_overflow :
    mkMultiGetContext 65 =
      { num_keys := 65, value_mask := 0, lookup_key_is_inline := true } ∧
    constructorWrittenSlots 65 = List.range 65 ∧
    64 ∈ constructorWrittenSlots 65 ∧
    MAX_KEYS_ON_STACK = 32 := by
  refine ⟨rfl, rfl, ?_, rfl⟩
  unfold constructorWrittenSlots
  exact List.mem_range.mpr (by omega)

/-- C8 (behavior at the failing input): with `num_keys = 33`, one above
the inline capacity `MAX_KEYS_ON_STACK = 32`, the constructor still
leaves `lookup_key_ptr_` pointing at the inline buffer — no heap region
is ever allocated — while its loop writes slot 32, beyond the inline
region; consequently the destructor's conditional heap release never
fires. -/
theorem no_heap_fallback :
    (mkMultiGetContext 33).lookup_key_is_inline = true ∧
    destructorFreesHeap (mkMultiGetContext 33) = false ∧
    MAX_KEYS_ON_STACK = 32 ∧
    32 ∈ constructorWrittenSlots 33 := by
  refine ⟨rfl, rfl, rfl, ?_⟩
  unfold constructorWrittenSlots
  exact List.mem_range.mpr (by omega)

/-- C2 (amended): `Wait()` on a state with no pending waiters is a
no-op leaving the state unchanged, with the counter at zero by the
reachable-state invariant.  Otherwise it collects every non-null I/O
handle across all pending waiters (the collection loop equals the
per-waiter concatenation), issues exactly one combined poll over that
set **when it is nonempty** (and no poll call at all when every handle
is null), then strictly in FIFO enqueue order runs each waiter's
per-request cleanup callbacks (for requests having both a handle and a
cleanup function) and resumes each waiter's continuation, records the
histogram sample, and leaves the pending list empty with the request
counter zero. -/
theorem wait_spec (s : AFRState) (hwf : AFRStateWF s) :
    (s.waiters = [] → wait s = (s, []) ∧ s.num_reqs = 0) ∧
    (s.waiters ≠ [] →
      (wait s).1 = { waiters := [], num_reqs := 0 } ∧
      (wait s).2 =
        (if (collectLoop s.waiters).length > 0
          then [AFREvent.poll (collectLoop s.waiters)] else []) ++
          s.waiters.flatMap (fun w => waiterCleanups w ++ [AFREvent.resume w.coro]) ++
          [AFREvent.record s.num_reqs] ∧
      collectLoop s.waiters = s.waiters.flatMap collectPerWaiter) ∧
    resumesOf (wait s).2 = s.waiters.map (fun w => w.coro) := by
  obtain ⟨ws, nr⟩ := s
  cases ws with
  | nil =>
    have hnr : nr = 0 := by
      unfold AFRStateWF at hwf
      simpa using hwf
    refine ⟨fun _ => ⟨rfl, hnr⟩, fun hne => absurd rfl hne, ?_⟩
    rfl
  | cons w rest =>
    have hw : wait { waiters := w :: rest, num_reqs := nr } =
        ({ waiters := [], num_reqs := 0 },
          (if (collectLoop (w :: rest)).length > 0
            then [AFREvent.poll (collectLoop (w :: rest))] else []) ++
            drainLoop (w :: rest) ++ [AFREvent.record nr]) := rfl
    have hpoll : resumesOf
        (if (collectLoop (w :: rest)).length > 0
          then [AFREvent.poll (collectLoop (w :: rest))] else []) = [] := by
      split
      · rfl
      · rfl
    refine ⟨fun hcontra => absurd hcontra (by simp), fun _ => ⟨?_, ?_, ?_⟩, ?_⟩
    · rw [hw]
    · show (wait { waiters := w :: rest, num_reqs := nr }).2 = _
      rw [hw, drainLoop_flatMap]
    · exact collectLoop_flatMap (w :: rest)
    · show resumesOf (wait { waiters := w :: rest, num_reqs := nr }).2 = _
      rw [hw]
      show resumesOf (_ ++ drainLoop (w :: rest) ++ [AFREvent.record nr]) = _
      rw [resumesOf_append, resumesOf_append, resumesOf_drainLoop, hpoll]
      simp [resumesOf]

/-- Witness for C2 at a concrete state: two flows enqueued with 2 and 3
requests respectively, every backend handle present. -/
theorem wait_spec_witness :
    AFRStateWF afrTwoFlowState ∧
    ((afrTwoFlowState.waiters = [] →
        wait afrTwoFlowState = (afrTwoFlowState, []) ∧ afrTwoFlowState.num_reqs = 0) ∧
    (afrTwoFlowState.waiters ≠ [] →
      (wait afrTwoFlowState).1 = { waiters := [], num_reqs := 0 } ∧
      (wait afrTwoFlowState).2 =
        (if (collectLoop afrTwoFlowState.waiters).length > 0
          then [AFREvent.poll (collectLoop afrTwoFlowState.waiters)] else []) ++
          afrTwoFlowState.waiters.flatMap
            (fun w => waiterCleanups w ++ [AFREvent.resume w.coro]) ++
          [AFREvent.record afrTwoFlowState.num_reqs] ∧
      collectLoop afrTwoFlowState.waiters =
        afrTwoFlowState.waiters.flatMap collectPerWaiter) ∧
    resumesOf (wait afrTwoFlowState).2 =
      afrTwoFlowState.waiters.map (fun w => w.coro)) :=
  ⟨by unfold AFRStateWF; decide, wait_spec afrTwoFlowState (by unfold AFRStateWF; decide)⟩

/-- C2 counterexample to the claim as stated: `afrNullState` has one
pending waiter, so the claim requires exactly one combined poll call;
but every collected handle is null, and `Wait()` makes no poll call at
all — its trace is just the resume and the histogram record. -/
theorem wait_no_poll_counterexample :
    afrNullState.waiters ≠ [] ∧
    (wait afrNullState).2 = [AFREvent.resume 7, AFREvent.record 1] ∧
    (wait afrNullState).2.all (fun e => !e.isPoll) = true := by
  refine ⟨by decide, by decide, by decide⟩

/-- C9 (amended): after `MultiReadAsyncImpl` enqueues a waiter with `k`
read requests, the waiter appended at the tail holds `2*k` entries in
each of `io_handle_` and `del_fn_` — the `resize(k)` slots, written
per-request by `ReadAsync` so that the `i`-th entry (`i < k`)
corresponds to the `i`-th request, followed by the `k` null entries
`push_back`'d by the loop — and the first `k` entries are exactly what
`Wait()`'s collection and cleanup phases consult. -/
theorem enqueue_slot_invariant (backend : Nat → Option Nat × Option Nat)
    (s : AFRState) (k coro : Nat) :
    (multiReadAsyncImpl backend s k coro).waiters =
      s.waiters ++ [enqueuedWaiter backend k coro] ∧
    (multiReadAsyncImpl backend s k coro).num_reqs = s.num_reqs + k ∧
    (enqueuedWaiter backend k coro).io_handle.length = 2 * k ∧
    (enqueuedWaiter backend k coro).del_fn.length = 2 * k ∧
    (enqueuedWaiter backend k coro).io_handle.take k =
      (List.range k).map (fun i => (backend i).1) ∧
    (enqueuedWaiter backend k coro).del_fn.take k =
      (List.range k).map (fun i => (backend i).2) ∧
    (enqueuedWaiter backend k coro).io_handle.drop k = List.replicate k none ∧
    (enqueuedWaiter backend k coro).del_fn.drop k = List.replicate k none ∧
    collectPerWaiter (enqueuedWaiter backend k coro) =
      (List.range k).filterMap (fun i => (backend i).1) ∧
    waiterCleanups (enqueuedWaiter backend k coro) =
      (List.range k).filterMap (fun i =>
        match (backend i).1, (backend i).2 with
        | some hh, some f => some (AFREvent.cleanup f hh)
        | _, _ => none) := by
  have hio : (enqueuedWaiter backend k coro).io_handle =
      (List.range k).map (fun i => (backend i).1) ++ List.replicate k none := by
    unfold enqueuedWaiter
    rw [enqueueVectors_eq]
  have hdf : (enqueuedWaiter backend k coro).del_fn =
      (List.range k).map (fun i => (backend i).2) ++ List.replicate k none := by
    unfold enqueuedWaiter
    rw [enqueueVectors_eq]
  have hlen1 : ((List.range k).map (fun i => (backend i).1)).length = k := by simp
  have hlen2 : ((List.range k).map (fun i => (backend i).2)).length = k := by simp
  have hgetio : ∀ i, i < k →
      (enqueuedWaiter backend k coro).io_handle.getD i none = (backend i).1 := by
    intro i hik
    rw [hio, List.getD_eq_getElem?_getD, List.getElem?_append_left (by omega)]
    simp [List.getElem?_map, List.getElem?_range hik]
  have hgetdf : ∀ i, i < k →
      (enqueuedWaiter backend k coro).del_fn.getD i none = (backend i).2 := by
    intro i hik
    rw [hdf, List.getD_eq_getElem?_getD, List.getElem?_append_left (by omega)]
    simp [List.getElem?_map, List.getElem?_range hik]
  refine ⟨rfl, rfl, ?_, ?_, ?_, ?_, ?_, ?_, ?_, ?_⟩
  · rw [hio]
    simp [Nat.two_mul]
  · rw [hdf]
    simp [Nat.two_mul]
  · rw [hio, List.take_left' hlen1]
  · rw [hdf, List.take_left' hlen2]
  · rw [hio, List.drop_left' hlen1]
  · rw [hdf, List.drop_left' hlen2]
  · unfold collectPerWaiter
    show (List.range k).filterMap
        (fun i => (enqueuedWaiter backend k coro).io_handle.getD i none) = _
    apply List.filterMap_congr
    intro i hi
    exact hgetio i (List.mem_range.mp hi)
  · unfold waiterCleanups
    show (List.range k).filterMap _ = _
    apply List.filterMap_congr
    intro i hi
    rw [hgetio i (List.mem_range.mp hi), hgetdf i (List.mem_range.mp hi)]

/-- C9 counterexample to the claim as stated: a waiter enqueued with
`k = 1` request ends up with 2 entries in `io_handle_` (and in
`del_fn_`), not exactly 1. -/
theorem enqueue_double_slots_counterexample :
    ((multiReadAsyncImpl (fun _ => (some 5, some 6))
        { waiters := [], num_reqs := 0 } 1 0).waiters.map
      (fun w => w.io_handle.length)) = [2] ∧
    ((multiReadAsyncImpl (fun _ => (some 5, some 6))
        { waiters := [], num_reqs := 0 } 1 0).waiters.map
      (fun w => w.del_fn.length)) = [2] ∧
    (2 : Nat) ≠ 1 := by
  refine ⟨by decide, by decide, by decide⟩

end RocksDBMultiGet
